import Mathlib

/-!
Verification of the battle-resolution core of the tournament package
(`battle_utils.py`).  The Python generator `gen_battle` is embedded as a
fuel-indexed state machine over explicit rosters; the global random source is
modelled as an injected entropy stream.  Python semantics notes:

* `random.randint(0, 100)` draws an integer from the inclusive range
  `[0, 100]`; the stream supplies an arbitrary natural that is reduced
  `% 101` onto that range.
* `random.choice(alive)` picks an element of `alive`; the stream supplies an
  index, reduced modulo the list length (`random.choice` on an empty list
  raises `IndexError`, modelled as a failure outcome).
* `random.uniform(0.8, 1.2)` is modelled as an exact rational draw `u`;
  hypotheses carry the interval bounds where a property needs them.
* Python `int(x)` truncates toward zero; for the exact rational
  `attack * u = (attack * u.num) / u.den` that truncation is `Int.tdiv`.
* Python string interpolation of an integer prints its decimal form, which
  `toString` on `Int`/`Nat` matches.
-/

namespace Ballsdex

/-- `BattleBall` from `battle_utils.py` (lines 6-13): name, owner, mutable
health, attack stat, emoji, and the death flag. -/
structure BattleBall where
  name : String
  owner : String
  health : ℤ
  attack : ℤ
  emoji : String := ""
  dead : Bool := false
deriving DecidableEq, Repr

/-- One packet of the entropy stream: `int` serves the integer draws
(`randint`, `choice`), `unif` the `random.uniform(0.8, 1.2)` draws. -/
structure RDraw where
  int : ℕ
  unif : ℚ

/-- The injected random source: the `k`-th value consumed by the engine. -/
abbrev Entropy : Type := ℕ → RDraw

/-- `get_damage` (lines 24-25): `int(ball.attack * random.uniform(0.8, 1.2))`.
With the uniform draw as the exact rational `u`, the product is the rational
`(ball.attack * u.num) / u.den`, and Python `int` truncates it toward zero:
`Int.tdiv`. -/
def get_damage (ball : BattleBall) (u : ℚ) : ℤ :=
  (ball.attack * u.num).tdiv u.den

/-- Lines 33-37 of `attack`: subtract the damage, clamp at zero and set the
death flag when the result is non-positive. -/
def takeDamage (enemy : BattleBall) (attack_dealt : ℤ) : BattleBall :=
  if enemy.health - attack_dealt ≤ 0 then
    { enemy with health := 0, dead := true }
  else
    { enemy with health := enemy.health - attack_dealt }

/-- `f"{c.owner}'s {c.name} missed {t.owner}'s {t.name}"` (line 75/88 body). -/
def missText (c t : BattleBall) : String :=
  c.owner ++ "\x27s " ++ c.name ++ " missed " ++ t.owner ++ "\x27s " ++ t.name

/-- `f"{c.owner}'s {c.name} has killed {t.owner}'s {t.name}"` (line 40). -/
def killedText (c t : BattleBall) : String :=
  c.owner ++ "\x27s " ++ c.name ++ " has killed " ++ t.owner ++ "\x27s " ++ t.name

/-- `f"{c.owner}'s {c.name} has dealt {d} damage to {t.owner}'s {t.name}"`
(line 42). -/
def dealtText (c : BattleBall) (d : ℤ) (t : BattleBall) : String :=
  c.owner ++ "\x27s " ++ c.name ++ " has dealt " ++ toString d ++ " damage to "
    ++ t.owner ++ "\x27s " ++ t.name

/-- `f"Turn {turn}: {txt}"` (lines 75, 77, 88, 90). -/
def turnLine (turn : ℕ) (txt : String) : String :=
  "Turn " ++ toString turn ++ ": " ++ txt

/-- The stalemate log line (line 59). -/
def stalemateLine : String :=
  "Everyone stared at each other, resulting in nobody winning."

/-- Indices of the balls of `l` that are not dead: the mutable-reference
snapshot `[ball for ball in l if not ball.dead]` is modelled by indices into
the current roster. -/
def aliveIdxs (l : List BattleBall) : List ℕ :=
  (List.range l.length).filter fun i => ((l[i]?.map fun b => !b.dead).getD false)

/-- `any(ball for ball in l if not ball.dead)` (lines 62-63). -/
def anyAlive (l : List BattleBall) : Bool :=
  l.any fun b => !b.dead

/-- `all(ball.dead for ball in l)` (lines 79, 92, 96, 98). -/
def allDead (l : List BattleBall) : Bool :=
  l.all fun b => b.dead

/-- `attack(current_ball, enemy_balls)` (lines 28-43): pick a random living
enemy (`c` is the entropy index for `random.choice`, `u` the uniform draw for
`get_damage`), apply the damage, and produce the log text.  `none` models the
`IndexError` of `random.choice([])`. -/
def attack (current_ball : BattleBall) (enemy_balls : List BattleBall)
    (c : ℕ) (u : ℚ) : Option (List BattleBall × String) :=
  let alive := aliveIdxs enemy_balls
  match alive[c % alive.length]? with
  | none => none
  | some t =>
    match enemy_balls[t]? with
    | none => none
    | some enemy =>
      let attack_dealt := get_damage current_ball u
      let enemy' := takeDamage enemy attack_dealt
      let gen_text :=
        if enemy'.dead then killedText current_ball enemy'
        else dealtText current_ball attack_dealt enemy'
      some (enemy_balls.set t enemy', gen_text)

/-- `random_events` (lines 46-50): `1` (a miss) iff the `randint(0, 100)`
draw — the stream value reduced onto `[0, 100]` — is `≤ 30`, else `0`. -/
def random_events (n : ℕ) : ℕ :=
  if n % 101 ≤ 30 then 1 else 0

/-- The generator's running state: the two rosters, the turn counter, the
log emitted so far, and the entropy-stream position. -/
structure EngineSt where
  p1 : List BattleBall
  p2 : List BattleBall
  turn : ℕ
  log : List String
  pos : ℕ
deriving DecidableEq, Repr

/-- Result of the body of the `for` loop for one zipped pair: `cont` moves to
the next pair (normal fall-through or `continue`), `brk` is `break`, `fail`
models an uncaught `IndexError`. -/
inductive StepRes where
  | cont (st : EngineSt)
  | brk (st : EngineSt)
  | fail (st : EngineSt)
deriving DecidableEq, Repr

/-- Second half of the loop body (lines 82-93): player 2's slot `j` attacks,
if its ball is still alive after player 1's action. -/
def pairStep2 (e : Entropy) (i j : ℕ) (st : EngineSt) : StepRes :=
  match st.p2[j]? with
  | none => .fail st
  | some p2_ball =>
    if p2_ball.dead then .cont st
    else
      let turn := st.turn + 1
      let roll := random_events (e st.pos).int
      let pos := st.pos + 1
      if roll = 1 then
        match st.p1[i]? with
        | none => .fail { st with turn := turn, pos := pos }
        | some p1_ball =>
          .cont { st with
              turn := turn, pos := pos,
              log := st.log ++ [turnLine turn (missText p2_ball p1_ball)] }
      else
        let c := (e pos).int
        let u := (e (pos + 1)).unif
        match attack p2_ball st.p1 c u with
        | none => .fail { st with turn := turn, pos := pos + 2 }
        | some (p1', txt) =>
          let st' := { st with
              p1 := p1', turn := turn, pos := pos + 2,
              log := st.log ++ [turnLine turn txt] }
          if allDead st'.p1 then .brk st' else .cont st'

/-- Body of the `for` loop (lines 68-93) for the zipped pair `(i, j)`:
player 1's slot attacks first (lines 69-80); on a miss Python `continue`s,
skipping player 2's slot for this pair; a kill that clears the opposing
roster `break`s; otherwise player 2's slot acts (`pairStep2`). -/
def pairStep (e : Entropy) (i j : ℕ) (st : EngineSt) : StepRes :=
  match st.p1[i]? with
  | none => .fail st
  | some p1_ball =>
    if p1_ball.dead then pairStep2 e i j st
    else
      let turn := st.turn + 1
      let roll := random_events (e st.pos).int
      let pos := st.pos + 1
      if roll = 1 then
        match st.p2[j]? with
        | none => .fail { st with turn := turn, pos := pos }
        | some p2_ball =>
          .cont { st with
              turn := turn, pos := pos,
              log := st.log ++ [turnLine turn (missText p1_ball p2_ball)] }
      else
        let c := (e pos).int
        let u := (e (pos + 1)).unif
        match attack p1_ball st.p2 c u with
        | none => .fail { st with turn := turn, pos := pos + 2 }
        | some (p2', txt) =>
          let st' := { st with
              p2 := p2', turn := turn, pos := pos + 2,
              log := st.log ++ [turnLine turn txt] }
          if allDead st'.p2 then .brk st' else pairStep2 e i j st'

/-- Result of one full pass of the `for` loop: `norm` returns to the `while`
condition (normal exhaustion or `break`), `fail` models an exception. -/
inductive ForRes where
  | norm (st : EngineSt)
  | fail (st : EngineSt)
deriving DecidableEq, Repr

/-- The `for` loop over the zipped alive snapshots (line 68). -/
def runPairs (e : Entropy) : List (ℕ × ℕ) → EngineSt → ForRes
  | [], st => .norm st
  | ij :: rest, st =>
    match pairStep e ij.1 ij.2 st with
    | .cont st' => runPairs e rest st'
    | .brk st' => .norm st'
    | .fail st' => .fail st'

/-- The `while` condition (lines 62-64): a living ball on each side. -/
def loopCond (st : EngineSt) : Bool :=
  anyAlive st.p1 && anyAlive st.p2

/-- Outcome of the `while` loop: `done` is normal exit, `fail` an exception,
`fuelOut` reports that `fuel` rounds did not suffice (the Python loop is not
guaranteed to terminate, so the embedding is fuel-indexed). -/
inductive Outcome where
  | done (st : EngineSt)
  | fail (st : EngineSt)
  | fuelOut (st : EngineSt)
deriving DecidableEq, Repr

/-- The `while` loop (lines 62-93): snapshot the alive indices of both sides,
zip them, and run the `for` loop; `fuel` bounds the number of rounds. -/
def runLoop (e : Entropy) : ℕ → EngineSt → Outcome
  | 0, st => if loopCond st then .fuelOut st else .done st
  | fuel + 1, st =>
    if loopCond st then
      match runPairs e ((aliveIdxs st.p1).zip (aliveIdxs st.p2)) st with
      | .norm st' => runLoop e fuel st'
      | .fail st' => .fail st'
    else .done st

/-- The generator's starting state for a fresh `BattleInstance`. -/
def initSt (p1_balls p2_balls : List BattleBall) : EngineSt :=
  ⟨p1_balls, p2_balls, 0, [], 0⟩

/-- Winner determination (lines 96-99): `p1` checked for full death first;
`battle.winner` keeps its default `""` when neither side is fully dead.
`none` models the `IndexError` of indexing `[0]` on an empty roster. -/
def finalizeWinner (p1 p2 : List BattleBall) : Option String :=
  if allDead p1 then (p2[0]?.map fun b => b.owner)
  else if allDead p2 then (p1[0]?.map fun b => b.owner)
  else some ""

/-- Overall result of a battle: `finished` carries `battle.winner`,
`battle.turns` and the full log; `fuelOut` and `error` are the
non-termination and exception outcomes of the embedding. -/
inductive BattleOutcome where
  | finished (winner : String) (turns : ℕ) (log : List String)
  | fuelOut (st : EngineSt)
  | error (st : EngineSt)
deriving DecidableEq, Repr

/-- `gen_battle` (lines 53-102), run to completion: the stalemate
short-circuit (lines 57-60), then the `while` loop, then winner and turn
finalization (lines 96-102). -/
def gen_battle (e : Entropy) (fuel : ℕ) (p1_balls p2_balls : List BattleBall) :
    BattleOutcome :=
  if (p1_balls ++ p2_balls).all (fun ball => decide (ball.attack ≤ 0)) then
    .finished "" 0 [stalemateLine]
  else
    match runLoop e fuel (initSt p1_balls p2_balls) with
    | .done st =>
      match finalizeWinner st.p1 st.p2 with
      | some w => .finished w st.turn st.log
      | none => .error st
    | .fail st => .error st
    | .fuelOut st => .fuelOut st

/-- A ball's health clamped to ℕ, the per-ball termination measure. -/
def healthNat (b : BattleBall) : ℕ :=
  b.health.toNat

/-- Sum of the (clamped) healths of every ball in play: the termination
measure. -/
def totalHealth (st : EngineSt) : ℕ :=
  ((st.p1 ++ st.p2).map healthNat).sum

/-- Whether the outcome is fuel exhaustion. -/
def Outcome.isFuelOut : Outcome → Bool
  | .fuelOut _ => true
  | .done _ => false
  | .fail _ => false

/-- The state carried by an outcome, whichever constructor produced it. -/
def Outcome.state : Outcome → EngineSt
  | .done s => s
  | .fail s => s
  | .fuelOut s => s

/-- A state predicate holding of every non-failure result of a loop-body
step. -/
def StepRes.holds (P : EngineSt → Prop) : StepRes → Prop
  | .cont st => P st
  | .brk st => P st
  | .fail _ => True

/-- A state predicate holding of every non-failure result of a `for` pass. -/
def ForRes.holds (P : EngineSt → Prop) : ForRes → Prop
  | .norm st => P st
  | .fail _ => True

/-- A state predicate holding of every non-failure outcome of the loop. -/
def Outcome.holds (P : EngineSt → Prop) : Outcome → Prop
  | .done st => P st
  | .fuelOut st => P st
  | .fail _ => True

/-- Invariant for the termination bound: every ball has `attack ≥ 2`, and
living balls have `health ≥ 1`. -/
def ProgressInv (s : EngineSt) : Prop :=
  (∀ b ∈ s.p1, 2 ≤ b.attack ∧ (b.dead = false → 1 ≤ b.health)) ∧
  (∀ b ∈ s.p2, 2 ≤ b.attack ∧ (b.dead = false → 1 ≤ b.health))

/-- Pointwise evolution of a roster from its starting value: same length,
each ball keeps its attack stat, and its health stays within `[0, initial]`. -/
def Evolves (p0 p : List BattleBall) : Prop :=
  p.length = p0.length ∧
    ∀ (t : ℕ) (b0 b : BattleBall), p0[t]? = some b0 → p[t]? = some b →
      b.attack = b0.attack ∧ 0 ≤ b.health ∧ b.health ≤ b0.health

/-! ### Concrete inputs for witnesses and counterexamples -/

/-- Entropy stream with no misses (`100 % 101 = 100 > 30`) and uniform
draw `1`. -/
def eHit : Entropy := fun _ => ⟨100, mkRat 1 1⟩

/-- Entropy stream in which every miss roll lands on `0 ≤ 30`: every attack
attempt misses. -/
def eMiss : Entropy := fun _ => ⟨0, mkRat 1 1⟩

def wAlice : BattleBall := ⟨"A", "Alice", 1, 1, "", false⟩

def wBob : BattleBall := ⟨"B", "Bob", 5, 5, "", false⟩

def defaultBall : BattleBall := ⟨"", "", 0, 0, "", false⟩

/-- Final state of the `eHit` battle `[wAlice]` vs `[wBob]`. -/
def wSt : EngineSt := (runLoop eHit 5 (initSt [wAlice] [wBob])).state

def wWinner : BattleBall := wSt.p2[0]?.getD defaultBall

def zuZoe : BattleBall := ⟨"Z", "Zoe", 5, 0, "", false⟩

def zuYan : BattleBall := ⟨"Y", "Yan", 5, -3, "", false⟩

def cxAlice : BattleBall := ⟨"A", "Alice", 10, 5, "", false⟩

/-- A combatant with negative attack: its damage rolls are negative. -/
def cxNed : BattleBall := ⟨"N", "Ned", 10, -10, "", false⟩

/-- Final state of the `eHit` battle `[cxAlice]` vs `[cxNed]`. -/
def cSt : EngineSt := (runLoop eHit 9 (initSt [cxAlice] [cxNed])).state

def cxNeg : BattleBall := ⟨"N", "Ned", 10, -5, "", false⟩

def c5Bob : BattleBall := ⟨"B", "Bob", 1, 1, "", false⟩

def c5Eve : BattleBall := ⟨"E", "Eve", 3, 2, "", false⟩

/-- State after three all-miss rounds of `[wAlice]` vs `[c5Bob]`. -/
def c5St : EngineSt := (runLoop eMiss 3 (initSt [wAlice] [c5Bob])).state

def mSt : EngineSt := initSt [wAlice] [wBob]

/-! ### Helper lemmas -/

theorem runLoop_of_cond_false (e : Entropy) (fuel : ℕ) (st : EngineSt)
    (h : loopCond st = false) : runLoop e fuel st = .done st := by
  cases fuel <;> simp [runLoop, h]

theorem rat_mul_eq_div (a : ℤ) (u : ℚ) :
    (a : ℚ) * u = ((a * u.num : ℤ) : ℚ) / ((u.den : ℕ) : ℚ) := by
  conv_lhs => rw [← Rat.num_div_den u]
  push_cast
  ring

theorem get_damage_nonneg (cb : BattleBall) (u : ℚ) (ha : 0 ≤ cb.attack)
    (hu : 0 ≤ u) : 0 ≤ get_damage cb u := by
  unfold get_damage
  exact Int.tdiv_nonneg (mul_nonneg ha (Rat.num_nonneg.mpr hu)) (by positivity)

theorem get_damage_pos (cb : BattleBall) (u : ℚ) (ha : 2 ≤ cb.attack)
    (hu : mkRat 4 5 ≤ u) : 1 ≤ get_damage cb u := by
  have hu45 : (4 : ℚ) / 5 ≤ u := by
    rw [show ((4 : ℚ) / 5) = mkRat 4 5 by
      rw [Rat.mkRat_eq_divInt, Rat.divInt_eq_div]; norm_num]
    exact hu
  have hu0 : (0 : ℚ) ≤ u := le_trans (by norm_num) hu45
  have hden : (0 : ℚ) < (u.den : ℚ) := by exact_mod_cast u.den_pos
  have hnum : (u.num : ℚ) = u * (u.den : ℚ) :=
    (div_eq_iff (ne_of_gt hden)).mp (Rat.num_div_den u)
  have hnn : (0 : ℚ) ≤ (u.num : ℚ) := by
    rw [hnum]; exact mul_nonneg hu0 (le_of_lt hden)
  have h2 : (4 : ℚ) / 5 * (u.den : ℚ) ≤ (u.num : ℚ) := by
    rw [hnum]; exact mul_le_mul_of_nonneg_right hu45 (le_of_lt hden)
  have h3 : (2 : ℚ) * (u.num : ℚ) ≤ (cb.attack : ℚ) * (u.num : ℚ) :=
    mul_le_mul_of_nonneg_right (by exact_mod_cast ha) hnn
  have hkey : ((u.den : ℤ) : ℚ) ≤ ((cb.attack * u.num : ℤ) : ℚ) := by
    push_cast
    linarith
  have hkey' : (u.den : ℤ) ≤ cb.attack * u.num := by exact_mod_cast hkey
  have hd : (0 : ℤ) < (u.den : ℤ) := by exact_mod_cast u.den_pos
  unfold get_damage
  rw [Int.tdiv_eq_ediv (le_trans (le_of_lt hd) hkey') (le_of_lt hd)]
  exact (Int.le_ediv_iff_mul_le hd).mpr (by linarith)

theorem takeDamage_cases (enemy : BattleBall) (d : ℤ) :
    (takeDamage enemy d = { enemy with health := 0, dead := true } ∧
      enemy.health - d ≤ 0) ∨
    (takeDamage enemy d = { enemy with health := enemy.health - d } ∧
      0 < enemy.health - d) := by
  unfold takeDamage
  split
  · next h => exact Or.inl ⟨rfl, h⟩
  · next h => exact Or.inr ⟨rfl, by omega⟩

theorem takeDamage_attack_eq (enemy : BattleBall) (d : ℤ) :
    (takeDamage enemy d).attack = enemy.attack := by
  rcases takeDamage_cases enemy d with ⟨he, _⟩ | ⟨he, _⟩ <;> rw [he]

theorem takeDamage_health_nonneg (enemy : BattleBall) (d : ℤ) :
    0 ≤ (takeDamage enemy d).health := by
  rcases takeDamage_cases enemy d with ⟨he, hc⟩ | ⟨he, hc⟩ <;> rw [he] <;>
    dsimp <;> omega

theorem takeDamage_health_le (enemy : BattleBall) (d : ℤ)
    (hd : 0 ≤ d) (hh : 0 ≤ enemy.health) :
    (takeDamage enemy d).health ≤ enemy.health := by
  rcases takeDamage_cases enemy d with ⟨he, hc⟩ | ⟨he, hc⟩ <;> rw [he] <;>
    dsimp <;> omega

theorem takeDamage_alive_health (enemy : BattleBall) (d : ℤ)
    (h : (takeDamage enemy d).dead = false) :
    1 ≤ (takeDamage enemy d).health := by
  rcases takeDamage_cases enemy d with ⟨he, hc⟩ | ⟨he, hc⟩ <;> rw [he] at h ⊢
  · simp at h
  · dsimp
    omega

theorem takeDamage_toNat_le (enemy : BattleBall) (d : ℤ) (hd : 0 ≤ d) :
    (takeDamage enemy d).health.toNat ≤ enemy.health.toNat := by
  rcases takeDamage_cases enemy d with ⟨he, hc⟩ | ⟨he, hc⟩ <;> rw [he] <;>
    dsimp <;> omega

theorem takeDamage_toNat_lt (enemy : BattleBall) (d : ℤ)
    (hd : 1 ≤ d) (hh : 1 ≤ enemy.health) :
    (takeDamage enemy d).health.toNat < enemy.health.toNat := by
  rcases takeDamage_cases enemy d with ⟨he, hc⟩ | ⟨he, hc⟩ <;> rw [he] <;>
    dsimp <;> omega

theorem sum_map_set_le (f : BattleBall → ℕ) :
    ∀ (l : List BattleBall) (t : ℕ) (b' b : BattleBall),
      l[t]? = some b → f b' ≤ f b →
      ((l.set t b').map f).sum ≤ ((l.map f)).sum
  | [], t, b', b, h, _ => by simp at h
  | x :: xs, 0, b', b, h, hle => by
    simp only [List.getElem?_cons_zero, Option.some.injEq] at h
    subst h
    simp only [List.set, List.map_cons, List.sum_cons]
    omega
  | x :: xs, t + 1, b', b, h, hle => by
    simp only [List.getElem?_cons_succ] at h
    have ih := sum_map_set_le f xs t b' b h hle
    simp only [List.set, List.map_cons, List.sum_cons]
    omega

theorem sum_map_set_lt (f : BattleBall → ℕ) :
    ∀ (l : List BattleBall) (t : ℕ) (b' b : BattleBall),
      l[t]? = some b → f b' < f b →
      ((l.set t b').map f).sum < ((l.map f)).sum
  | [], t, b', b, h, _ => by simp at h
  | x :: xs, 0, b', b, h, hlt => by
    simp only [List.getElem?_cons_zero, Option.some.injEq] at h
    subst h
    simp only [List.set, List.map_cons, List.sum_cons]
    omega
  | x :: xs, t + 1, b', b, h, hlt => by
    simp only [List.getElem?_cons_succ] at h
    have ih := sum_map_set_lt f xs t b' b h hlt
    simp only [List.set, List.map_cons, List.sum_cons]
    omega

theorem aliveIdxs_mem {l : List BattleBall} {t : ℕ} (h : t ∈ aliveIdxs l) :
    ∃ b, l[t]? = some b ∧ b.dead = false := by
  unfold aliveIdxs at h
  obtain ⟨-, hc⟩ := List.mem_filter.mp h
  cases hl : l[t]? with
  | none => simp [hl] at hc
  | some b => exact ⟨b, rfl, by simpa [hl] using hc⟩

theorem aliveIdxs_ne_nil {l : List BattleBall} (h : anyAlive l = true) :
    aliveIdxs l ≠ [] := by
  unfold anyAlive at h
  rw [List.any_eq_true] at h
  obtain ⟨b, hb, hd⟩ := h
  obtain ⟨t, ht, hbt⟩ := List.getElem_of_mem hb
  intro hnil
  have hmem : t ∈ aliveIdxs l := by
    unfold aliveIdxs
    rw [List.mem_filter, List.mem_range]
    refine ⟨ht, ?_⟩
    rw [List.getElem?_eq_getElem ht, hbt]
    simpa using hd
  rw [hnil] at hmem
  simp at hmem

theorem attack_eq_some {cb : BattleBall} {es : List BattleBall} {c : ℕ}
    {u : ℚ} {es' : List BattleBall} {txt : String}
    (h : attack cb es c u = some (es', txt)) :
    ∃ (t : ℕ) (enemy : BattleBall), es[t]? = some enemy ∧ enemy.dead = false ∧
      es' = es.set t (takeDamage enemy (get_damage cb u)) := by
  simp only [attack] at h
  split at h
  · exact absurd h (by simp)
  · next t ht =>
    split at h
    · exact absurd h (by simp)
    · next enemy he =>
      simp only [Option.some.injEq, Prod.mk.injEq] at h
      have htm : t ∈ aliveIdxs es := List.getElem?_mem ht
      obtain ⟨b, hb, hbd⟩ := aliveIdxs_mem htm
      rw [he] at hb
      injection hb with hb
      subst hb
      exact ⟨t, enemy, he, hbd, h.1.symm⟩

theorem attack_succeeds (cb : BattleBall) (es : List BattleBall) (c : ℕ)
    (u : ℚ) (h : anyAlive es = true) :
    ∃ (es' : List BattleBall) (txt : String) (t : ℕ) (enemy : BattleBall),
      attack cb es c u = some (es', txt) ∧ es[t]? = some enemy ∧
      enemy.dead = false ∧
      es' = es.set t (takeDamage enemy (get_damage cb u)) := by
  have hne := aliveIdxs_ne_nil h
  have hlen : 0 < (aliveIdxs es).length := List.length_pos.mpr hne
  have hidx : c % (aliveIdxs es).length < (aliveIdxs es).length :=
    Nat.mod_lt _ hlen
  obtain ⟨t, ht⟩ : ∃ t, (aliveIdxs es)[c % (aliveIdxs es).length]? = some t :=
    ⟨_, List.getElem?_eq_getElem hidx⟩
  obtain ⟨enemy, he, hed⟩ := aliveIdxs_mem (List.getElem?_mem ht)
  have hatk : attack cb es c u =
      some (es.set t (takeDamage enemy (get_damage cb u)),
        if (takeDamage enemy (get_damage cb u)).dead then
          killedText cb (takeDamage enemy (get_damage cb u))
        else dealtText cb (get_damage cb u)
          (takeDamage enemy (get_damage cb u))) := by
    simp only [attack]
    rw [ht]
    simp only []
    rw [he]
  exact ⟨_, _, t, enemy, hatk, he, hed, rfl⟩

theorem evolves_refl (p : List BattleBall) (hh : ∀ b ∈ p, 0 ≤ b.health) :
    Evolves p p := by
  refine ⟨rfl, fun t b0 b h0 hb => ?_⟩
  rw [h0] at hb
  injection hb with hb
  subst hb
  exact ⟨rfl, hh b0 (List.getElem?_mem h0), le_refl _⟩

theorem evolves_trans {q0 q1 q2 : List BattleBall}
    (h1 : Evolves q0 q1) (h2 : Evolves q1 q2) : Evolves q0 q2 := by
  obtain ⟨hl1, h1⟩ := h1
  obtain ⟨hl2, h2⟩ := h2
  refine ⟨hl2.trans hl1, fun t b0 b hb0 hb => ?_⟩
  have ht : t < q1.length := by
    have := (List.getElem?_eq_some_iff.mp hb).1
    omega
  obtain ⟨ha1, hh1, hle1⟩ := h1 t b0 q1[t] hb0 (List.getElem?_eq_getElem ht)
  obtain ⟨ha2, hh2, hle2⟩ := h2 t q1[t] b (List.getElem?_eq_getElem ht) hb
  exact ⟨ha2.trans ha1, hh2, hle2.trans hle1⟩

theorem evolves_nonneg {q0 q : List BattleBall} (h : Evolves q0 q) :
    ∀ b ∈ q, 0 ≤ b.health := by
  obtain ⟨hl, h⟩ := h
  intro b hb
  obtain ⟨t, ht, rfl⟩ := List.getElem_of_mem hb
  have h0 : t < q0.length := by omega
  exact (h t q0[t] _ (List.getElem?_eq_getElem h0)
    (List.getElem?_eq_getElem ht)).2.1

theorem evolves_attack_stat {q0 q : List BattleBall} (h : Evolves q0 q)
    {t : ℕ} {b : BattleBall} (hb : q[t]? = some b) :
    ∃ b0, q0[t]? = some b0 ∧ b.attack = b0.attack ∧ b0 ∈ q0 := by
  obtain ⟨hl, h⟩ := h
  have ht : t < q0.length := by
    have := (List.getElem?_eq_some_iff.mp hb).1
    omega
  refine ⟨q0[t], List.getElem?_eq_getElem ht, ?_, List.getElem_mem ht⟩
  exact (h t q0[t] b (List.getElem?_eq_getElem ht) hb).1

theorem attack_evolves {cb : BattleBall} {es : List BattleBall} {c : ℕ}
    {u : ℚ} {es' : List BattleBall} {txt : String}
    (ha : 0 ≤ cb.attack) (hu : 0 ≤ u) (hh : ∀ b ∈ es, 0 ≤ b.health)
    (h : attack cb es c u = some (es', txt)) : Evolves es es' := by
  obtain ⟨t, enemy, he, hed, hset⟩ := attack_eq_some h
  subst hset
  have hd := get_damage_nonneg cb u ha hu
  refine ⟨List.length_set .., fun t' b0 b hb0 hb => ?_⟩
  by_cases het : t' = t
  · subst het
    rw [he] at hb0
    injection hb0 with hb0
    subst hb0
    have hlt : t' < es.length := (List.getElem?_eq_some_iff.mp he).1
    rw [List.getElem?_set_self hlt] at hb
    injection hb with hb
    subst hb
    exact ⟨takeDamage_attack_eq enemy _, takeDamage_health_nonneg enemy _,
      takeDamage_health_le enemy _ hd (hh enemy (List.getElem?_mem he))⟩
  · rw [List.getElem?_set_ne (fun hne => het hne.symm)] at hb
    rw [hb0] at hb
    injection hb with hb
    subst hb
    exact ⟨rfl, hh b0 (List.getElem?_mem hb0), le_refl _⟩

theorem pairStep2_holds (e : Entropy) (i j : ℕ) (st : EngineSt)
    (P : EngineSt → Prop) (hP : P st)
    (hmiss : ∀ (s : EngineSt) (line : String) (q : ℕ), P s →
      P { s with turn := s.turn + 1, pos := q, log := s.log ++ [line] })
    (hatk2 : ∀ (s : EngineSt) (cb : BattleBall) (c k q : ℕ)
      (p1' : List BattleBall) (txt : String),
      P s → s.p2[j]? = some cb → cb.dead = false →
      attack cb s.p1 c ((e k).unif) = some (p1', txt) →
      P { s with
          p1 := p1', turn := s.turn + 1, pos := q,
          log := s.log ++ [turnLine (s.turn + 1) txt] }) :
    StepRes.holds P (pairStep2 e i j st) := by
  unfold pairStep2
  simp only []
  split
  · exact trivial
  · next p2_ball hj =>
    split
    · exact hP
    · next hdead =>
      split
      · split
        · exact trivial
        · next p1_ball hi => exact hmiss st _ _ hP
      · split
        · exact trivial
        · next p1' txt hatt =>
          split
          · exact hatk2 st p2_ball _ _ _ p1' txt hP hj
              (by simpa using hdead) hatt
          · exact hatk2 st p2_ball _ _ _ p1' txt hP hj
              (by simpa using hdead) hatt

theorem pairStep_holds (e : Entropy) (i j : ℕ) (st : EngineSt)
    (P : EngineSt → Prop) (hP : P st)
    (hmiss : ∀ (s : EngineSt) (line : String) (q : ℕ), P s →
      P { s with turn := s.turn + 1, pos := q, log := s.log ++ [line] })
    (hatk1 : ∀ (s : EngineSt) (cb : BattleBall) (c k q : ℕ)
      (p2' : List BattleBall) (txt : String),
      P s → s.p1[i]? = some cb → cb.dead = false →
      attack cb s.p2 c ((e k).unif) = some (p2', txt) →
      P { s with
          p2 := p2', turn := s.turn + 1, pos := q,
          log := s.log ++ [turnLine (s.turn + 1) txt] })
    (hatk2 : ∀ (s : EngineSt) (cb : BattleBall) (c k q : ℕ)
      (p1' : List BattleBall) (txt : String),
      P s → s.p2[j]? = some cb → cb.dead = false →
      attack cb s.p1 c ((e k).unif) = some (p1', txt) →
      P { s with
          p1 := p1', turn := s.turn + 1, pos := q,
          log := s.log ++ [turnLine (s.turn + 1) txt] }) :
    StepRes.holds P (pairStep e i j st) := by
  unfold pairStep
  simp only []
  split
  · exact trivial
  · next p1_ball hi =>
    split
    · exact pairStep2_holds e i j st P hP hmiss hatk2
    · next hdead =>
      split
      · split
        · exact trivial
        · next p2_ball hjj => exact hmiss st _ _ hP
      · split
        · exact trivial
        · next p2' txt hatt =>
          have hP' := hatk1 st p1_ball ((e (st.pos + 1)).int)
            (st.pos + 1 + 1) (st.pos + 1 + 2) p2' txt hP hi
            (by simpa using hdead) hatt
          split
          · exact hP'
          · exact pairStep2_holds e i j _ P hP' hmiss hatk2

theorem runPairs_holds (e : Entropy) (P : EngineSt → Prop)
    (hstep : ∀ (i j : ℕ) (s : EngineSt), P s →
      StepRes.holds P (pairStep e i j s)) :
    ∀ (pairs : List (ℕ × ℕ)) (st : EngineSt), P st →
      ForRes.holds P (runPairs e pairs st)
  | [], _, hP => hP
  | ij :: rest, st, hP => by
    unfold runPairs
    have h := hstep ij.1 ij.2 st hP
    split
    · next st' heq =>
      rw [heq] at h
      exact runPairs_holds e P hstep rest st' h
    · next st' heq =>
      rw [heq] at h
      exact h
    · exact trivial

theorem runLoop_holds (e : Entropy) (P : EngineSt → Prop)
    (hstep : ∀ (i j : ℕ) (s : EngineSt), P s →
      StepRes.holds P (pairStep e i j s)) :
    ∀ (fuel : ℕ) (st : EngineSt), P st → Outcome.holds P (runLoop e fuel st)
  | 0, st, hP => by
    unfold runLoop
    split
    · exact hP
    · exact hP
  | fuel + 1, st, hP => by
    unfold runLoop
    split
    · have h := runPairs_holds e P hstep
        ((aliveIdxs st.p1).zip (aliveIdxs st.p2)) st hP
      split
      · next st' heq =>
        rw [heq] at h
        exact runLoop_holds e P hstep fuel st' h
      · exact trivial
    · exact hP

theorem runLoop_done_cond (e : Entropy) :
    ∀ (fuel : ℕ) (st st' : EngineSt), runLoop e fuel st = .done st' →
      loopCond st' = false
  | 0, st, st', h => by
    unfold runLoop at h
    split at h
    · exact absurd h (by simp)
    · next hc =>
      injection h with h
      subst h
      simpa using hc
  | fuel + 1, st, st', h => by
    unfold runLoop at h
    split at h
    · split at h
      · next st'' heq => exact runLoop_done_cond e fuel st'' st' h
      · exact absurd h (by simp)
    · next hc =>
      injection h with h
      subst h
      simpa using hc

theorem allDead_eq_not_anyAlive (l : List BattleBall) :
    allDead l = !anyAlive l := by
  unfold allDead anyAlive
  induction l with
  | nil => rfl
  | cons x xs ih => simp [List.all_cons, List.any_cons, Bool.not_or, ih]

/-! ### C1: stalemate short-circuit -/

/-- C1: when every combatant of both rosters has `attack ≤ 0`, resolution
stops before the turn loop with winner `""`, turn count `0` and exactly the
one stalemate log line. -/
theorem stalemate_short_circuit (e : Entropy) (fuel : ℕ)
    (p1_balls p2_balls : List BattleBall)
    (h : ∀ b ∈ p1_balls ++ p2_balls, b.attack ≤ 0) :
    gen_battle e fuel p1_balls p2_balls = .finished "" 0 [stalemateLine] ∧
      [stalemateLine].length = 1 := by
  refine ⟨?_, rfl⟩
  unfold gen_battle
  rw [if_pos]
  simp only [List.all_eq_true, decide_eq_true_eq]
  exact fun b hb => h b hb

/-- Witness for C1 at a concrete stalemate battle. -/
theorem stalemate_short_circuit_witness :
    gen_battle eHit 5 [zuZoe] [zuYan] = .finished "" 0 [stalemateLine] :=
  (stalemate_short_circuit eHit 5 [zuZoe] [zuYan] (by decide)).1

/-! ### C9: determinism given the entropy stream -/

/-- C9: the battle outcome is a function of the rosters and the consumed
entropy stream alone — equal inputs and equal streams give identical log,
winner and turn count. -/
theorem battle_deterministic (e1 e2 : Entropy) (fuel : ℕ)
    (p1 p2 q1 q2 : List BattleBall)
    (he : ∀ k, e1 k = e2 k) (h1 : p1 = q1) (h2 : p2 = q2) :
    gen_battle e1 fuel p1 p2 = gen_battle e2 fuel q1 q2 := by
  have he' : e1 = e2 := funext he
  rw [he', h1, h2]

/-- Witness for C9 at a concrete battle. -/
theorem battle_deterministic_witness :
    gen_battle eHit 5 [wAlice] [wBob] = gen_battle eHit 5 [wAlice] [wBob] :=
  battle_deterministic eHit eHit 5 [wAlice] [wBob] [wAlice] [wBob]
    (fun _ => rfl) rfl rfl

/-! ### C6: empty rosters are not rejected -/

/-- Counterexample to C6 as stated: with an empty first roster and a
positive-attack opponent the engine raises no error and silently returns a
winner (`p2`'s owner) with zero turns and an empty log. -/
theorem empty_roster_cex :
    gen_battle eHit 5 ([] : List BattleBall) [wBob] = .finished "Bob" 0 [] := by
  decide

/-- C6 (amended): the source performs no entry validation.  With `p1 = []`
and any `p2` that defeats the stalemate check, resolution silently finishes
with `p2`'s first owner as winner, `turns = 0` and an empty log. -/
theorem empty_roster_not_rejected (e : Entropy) (fuel : ℕ)
    (p2 : List BattleBall) (b : BattleBall)
    (hns : (p2.all fun ball => decide (ball.attack ≤ 0)) = false)
    (hb : p2[0]? = some b) :
    gen_battle e fuel [] p2 = .finished b.owner 0 [] := by
  unfold gen_battle
  rw [List.nil_append, hns]
  have hcond : loopCond (initSt [] p2) = false := by
    simp [loopCond, initSt, anyAlive]
  rw [runLoop_of_cond_false e fuel _ hcond]
  simp [finalizeWinner, allDead, initSt, hb]

/-- Witness for the amended C6. -/
theorem empty_roster_not_rejected_witness :
    gen_battle eMiss 7 [] [wBob] = .finished "Bob" 0 [] :=
  empty_roster_not_rejected eMiss 7 [wBob] wBob (by decide) rfl

/-! ### C4: the damage roll truncates toward zero -/

/-- Counterexample to C4 as stated: for `attack = -5` and uniform draw
`u = 11/10`, the code computes `int(-5.5) = -5`, while
`floor(-5.5) = -6` — the floor semantics fails for negative attack. -/
theorem damage_not_floor_cex :
    get_damage cxNeg (mkRat 11 10) = -5 ∧
      ⌊(cxNeg.attack : ℚ) * mkRat 11 10⌋ = -6 := by
  refine ⟨by decide, ?_⟩
  have h := rat_mul_eq_div cxNeg.attack (mkRat 11 10)
  have h1 : cxNeg.attack * (mkRat 11 10).num = -55 := by decide
  have h2 : (mkRat 11 10).den = 10 := by decide
  rw [h, h1, h2, Rat.floor_intCast_div_natCast]
  decide

/-- C4 (amended): `damage = int(attack * U)` truncates the exact product
toward zero — it equals `floor` when the product is non-negative (so for all
`attack ≥ 0` with `U ≥ 0`) and `ceil` when it is negative; damage is not
clamped and may be `0`. -/
theorem damage_truncates (ball : BattleBall) (u : ℚ) :
    get_damage ball u =
      if 0 ≤ (ball.attack : ℚ) * u then ⌊(ball.attack : ℚ) * u⌋
      else ⌈(ball.attack : ℚ) * u⌉ := by
  have hq := rat_mul_eq_div ball.attack u
  have hdpos : (0 : ℚ) < ((u.den : ℕ) : ℚ) := by
    exact_mod_cast u.den_pos
  by_cases h : 0 ≤ (ball.attack : ℚ) * u
  · rw [if_pos h]
    have hn0 : 0 ≤ ball.attack * u.num := by
      by_contra hlt
      push_neg at hlt
      have hneg : (ball.attack : ℚ) * u < 0 := by
        rw [hq]
        exact div_neg_of_neg_of_pos (by exact_mod_cast hlt) hdpos
      linarith
    rw [hq, Rat.floor_intCast_div_natCast]
    exact Int.tdiv_eq_ediv hn0 (by positivity)
  · rw [if_neg h]
    push_neg at h
    have hn0 : ball.attack * u.num < 0 := by
      by_contra hge
      push_neg at hge
      have hpos : 0 ≤ (ball.attack : ℚ) * u := by
        rw [hq]
        exact div_nonneg (by exact_mod_cast hge) (le_of_lt hdpos)
      linarith
    have hsplit : (ball.attack : ℚ) * u =
        -((((-(ball.attack * u.num)) : ℤ) : ℚ) / ((u.den : ℕ) : ℚ)) := by
      rw [hq]
      push_cast
      ring
    rw [hsplit, Int.ceil_neg, Rat.floor_intCast_div_natCast]
    unfold get_damage
    rw [show ((ball.attack * u.num).tdiv u.den : ℤ) =
        -((-(ball.attack * u.num)).tdiv u.den) by simp [Int.neg_tdiv]]
    rw [Int.tdiv_eq_ediv (by omega) (by positivity)]

/-- Witness for the amended C4 (it is hypothesis-free, but evaluated at a
concrete non-negative input for concreteness). -/
theorem damage_truncates_witness :
    get_damage wBob (mkRat 11 10) =
      if 0 ≤ (wBob.attack : ℚ) * mkRat 11 10 then ⌊(wBob.attack : ℚ) * mkRat 11 10⌋
      else ⌈(wBob.attack : ℚ) * mkRat 11 10⌉ :=
  damage_truncates wBob (mkRat 11 10)

/-! ### C2: winner determination order -/

/-- C2: at normal loop exit of a non-stalemate battle, side A's full death is
checked first — if all of `p1` is dead the winner is the owner of the first
ball of `p2` regardless of `p2`'s own state; only if side A is not fully dead
is side B's death checked, giving the owner of the first ball of `p1`. -/
theorem winner_tiebreak (e : Entropy) (fuel : ℕ) (p1 p2 : List BattleBall)
    (st : EngineSt)
    (hns : ((p1 ++ p2).all fun ball => decide (ball.attack ≤ 0)) = false)
    (hrun : runLoop e fuel (initSt p1 p2) = .done st) :
    (allDead st.p1 = true → ∀ b : BattleBall, st.p2[0]? = some b →
        gen_battle e fuel p1 p2 = .finished b.owner st.turn st.log) ∧
    (allDead st.p1 = false → allDead st.p2 = true → ∀ a : BattleBall,
        st.p1[0]? = some a →
        gen_battle e fuel p1 p2 = .finished a.owner st.turn st.log) := by
  constructor
  · intro hd b hb
    unfold gen_battle
    rw [hns, hrun]
    simp [finalizeWinner, hd, hb]
  · intro hd1 hd2 a ha
    unfold gen_battle
    rw [hns, hrun]
    simp [finalizeWinner, hd1, hd2, ha]

/-- Witness for C2 at a concrete run in which `p1` is wiped out. -/
theorem winner_tiebreak_witness :
    gen_battle eHit 5 [wAlice] [wBob] = .finished wWinner.owner wSt.turn wSt.log :=
  (winner_tiebreak eHit 5 [wAlice] [wBob] wSt (by decide) (by decide)).1
    (by decide) wWinner (by decide)

/-! ### C8: the miss roll -/

/-- C8: the miss draw ranges over the 101 values of `[0, 100]`; an attack
misses exactly when the draw is `≤ 30` (31 of the 101 values — the bound is
inclusive, not a strict `< 30`); a missed attack still increments the turn
counter, leaves every ball untouched, and appends the distinct miss line. -/
theorem miss_roll (e : Entropy) (i j : ℕ) (st : EngineSt) (a b : BattleBall)
    (ha : st.p1[i]? = some a) (hb : st.p2[j]? = some b)
    (halive : a.dead = false)
    (hmiss : (e st.pos).int % 101 ≤ 30) :
    pairStep e i j st = .cont { st with
      turn := st.turn + 1, pos := st.pos + 1,
      log := st.log ++ [turnLine (st.turn + 1) (missText a b)] } ∧
    (∀ n : ℕ, random_events n = 1 ↔ n % 101 ≤ 30) ∧
    ((Finset.range 101).filter fun v => v ≤ 30).card = 31 := by
  refine ⟨?_, ?_, by decide⟩
  · have hre : random_events (e st.pos).int = 1 := by
      unfold random_events
      rw [if_pos hmiss]
    unfold pairStep
    rw [ha]
    simp [halive, hre, hb]
  · intro n
    unfold random_events
    split
    · next hc => simp [hc]
    · next hc => simp [hc]

/-- Witness for C8: the first pair of a fresh battle under the all-miss
stream. -/
theorem miss_roll_witness :
    pairStep eMiss 0 0 mSt = .cont { mSt with
      turn := mSt.turn + 1, pos := mSt.pos + 1,
      log := mSt.log ++ [turnLine (mSt.turn + 1) (missText wAlice wBob)] } ∧
    (∀ n : ℕ, random_events n = 1 ↔ n % 101 ≤ 30) ∧
    ((Finset.range 101).filter fun v => v ≤ 30).card = 31 :=
  miss_roll eMiss 0 0 mSt wAlice wBob (by decide) (by decide) rfl (by decide)

/-! ### C7: turn counter and log lines agree -/

/-- C7: in every completed non-stalemate battle the reported turn count
equals the number of log lines — each attack attempt (hit or miss) adds
exactly one turn and one line, appended in order. -/
theorem log_turn_consistency (e : Entropy) (fuel : ℕ)
    (p1 p2 : List BattleBall) (w : String) (t : ℕ) (log : List String)
    (hns : ((p1 ++ p2).all fun ball => decide (ball.attack ≤ 0)) = false)
    (hg : gen_battle e fuel p1 p2 = .finished w t log) :
    log.length = t := by
  have hstep : ∀ (i j : ℕ) (s : EngineSt), s.log.length = s.turn →
      StepRes.holds (fun s => s.log.length = s.turn) (pairStep e i j s) := by
    intro i j s hs
    refine pairStep_holds e i j s _ hs ?_ ?_ ?_
    · intro s' line q hs'
      simp [hs']
    · intro s' cb c k q p2' txt hs' _ _ _
      simp [hs']
    · intro s' cb c k q p1' txt hs' _ _ _
      simp [hs']
  have hO := runLoop_holds e (fun s => s.log.length = s.turn) hstep fuel
    (initSt p1 p2) rfl
  unfold gen_battle at hg
  rw [hns] at hg
  simp only [Bool.false_eq_true, if_false] at hg
  cases hrl : runLoop e fuel (initSt p1 p2) with
  | done st =>
    rw [hrl] at hg hO
    cases hfw : finalizeWinner st.p1 st.p2 with
    | some w' =>
      simp only [hfw, BattleOutcome.finished.injEq] at hg
      obtain ⟨-, ht, hlog⟩ := hg
      rw [← ht, ← hlog]
      exact hO
    | none =>
      simp only [hfw] at hg
      simp at hg
  | fail st =>
    rw [hrl] at hg
    simp at hg
  | fuelOut st =>
    rw [hrl] at hg
    simp at hg

/-- Witness for C7 at a concrete completed battle. -/
theorem log_turn_consistency_witness : wSt.log.length = wSt.turn :=
  log_turn_consistency eHit 5 [wAlice] [wBob] "Bob" wSt.turn wSt.log
    (by decide) (by decide)

/-! ### C10: exactly one side is wiped out at loop exit -/

/-- C10: starting from two rosters that each contain a living ball, a normal
loop exit has exactly one side fully dead: an attack only harms the opposing
roster and its attacker is alive when it strikes, so the side landing the
final blow keeps a living member. -/
theorem no_double_knockout (e : Entropy) (fuel : ℕ)
    (p1 p2 : List BattleBall) (st : EngineSt)
    (h1 : anyAlive p1 = true) (h2 : anyAlive p2 = true)
    (hrun : runLoop e fuel (initSt p1 p2) = .done st) :
    (allDead st.p1 = true ∧ allDead st.p2 = false) ∨
    (allDead st.p1 = false ∧ allDead st.p2 = true) := by
  have hstep : ∀ (i j : ℕ) (s : EngineSt),
      (anyAlive s.p1 = true ∨ anyAlive s.p2 = true) →
      StepRes.holds (fun s => anyAlive s.p1 = true ∨ anyAlive s.p2 = true)
        (pairStep e i j s) := by
    intro i j s hs
    refine pairStep_holds e i j s _ hs ?_ ?_ ?_
    · intro s' line q hs'
      exact hs'
    · intro s' cb c k q p2' txt hs' hcb hcbd hatt
      left
      show anyAlive s'.p1 = true
      unfold anyAlive
      rw [List.any_eq_true]
      exact ⟨cb, List.getElem?_mem hcb, by simp [hcbd]⟩
    · intro s' cb c k q p1' txt hs' hcb hcbd hatt
      right
      show anyAlive s'.p2 = true
      unfold anyAlive
      rw [List.any_eq_true]
      exact ⟨cb, List.getElem?_mem hcb, by simp [hcbd]⟩
  have hO := runLoop_holds e
    (fun s => anyAlive s.p1 = true ∨ anyAlive s.p2 = true) hstep fuel
    (initSt p1 p2) (Or.inl h1)
  rw [hrun] at hO
  have hO' : anyAlive st.p1 = true ∨ anyAlive st.p2 = true := hO
  have hc := runLoop_done_cond e fuel _ st hrun
  unfold loopCond at hc
  rw [allDead_eq_not_anyAlive, allDead_eq_not_anyAlive]
  cases ha1 : anyAlive st.p1 <;> cases ha2 : anyAlive st.p2 <;> simp_all

/-- Witness for C10 at a concrete battle. -/
theorem no_double_knockout_witness :
    (allDead wSt.p1 = true ∧ allDead wSt.p2 = false) ∨
    (allDead wSt.p1 = false ∧ allDead wSt.p2 = true) :=
  no_double_knockout eHit 5 [wAlice] [wBob] wSt (by decide) (by decide)
    (by decide)

/-! ### C3: health evolution -/

/-- Counterexample to C3 as stated: with a negative-attack combatant (allowed
by the stated preconditions) damage is negative and an attack raises the
target's health.  In the completed battle `[cxAlice]` vs `[cxNed]` Alice ends
at health `20` after starting at `10`. -/
theorem health_not_monotone_cex :
    runLoop eHit 9 (initSt [cxAlice] [cxNed]) = .done cSt ∧
      (cSt.p1[0]?.map fun b => b.health) = some 20 ∧
      (([cxAlice] : List BattleBall)[0]?.map fun b => b.health) = some 10 :=
  ⟨by decide, by decide, by decide⟩

/-- C3 (amended): when every combatant's attack is non-negative (and the
uniform draws are non-negative, as `[0.8, 1.2]` guarantees), every
combatant's health stays within `[0, initial]` for the whole battle, and
every single attack event keeps each enemy ball's health within `[0, its
previous value]`.  With negative attack, health can increase (see the
counterexample); health never drops below `0` in either case. -/
theorem health_monotone (e : Entropy) (fuel : ℕ) (p1 p2 : List BattleBall)
    (st : EngineSt)
    (hu : ∀ k, 0 ≤ (e k).unif)
    (hatk : ∀ b ∈ p1 ++ p2, 0 ≤ b.attack)
    (hh : ∀ b ∈ p1 ++ p2, 0 ≤ b.health)
    (hrun : runLoop e fuel (initSt p1 p2) = .done st) :
    (Evolves p1 st.p1 ∧ Evolves p2 st.p2) ∧
    ∀ (cb : BattleBall) (es : List BattleBall) (c : ℕ) (u : ℚ)
      (es' : List BattleBall) (txt : String),
      0 ≤ cb.attack → 0 ≤ u → (∀ b ∈ es, 0 ≤ b.health) →
      attack cb es c u = some (es', txt) → Evolves es es' := by
  refine ⟨?_, fun cb es c u es' txt ha hu' hh' hatt =>
    attack_evolves ha hu' hh' hatt⟩
  have hstep : ∀ (i j : ℕ) (s : EngineSt),
      (Evolves p1 s.p1 ∧ Evolves p2 s.p2) →
      StepRes.holds (fun s => Evolves p1 s.p1 ∧ Evolves p2 s.p2)
        (pairStep e i j s) := by
    intro i j s hs
    refine pairStep_holds e i j s _ hs ?_ ?_ ?_
    · intro s' line q hs'
      exact hs'
    · intro s' cb c k q p2' txt hs' hcb hcbd hatt
      refine ⟨hs'.1, evolves_trans hs'.2 ?_⟩
      obtain ⟨b0, hb0, hba, hbm⟩ := evolves_attack_stat hs'.1 hcb
      have hcba : 0 ≤ cb.attack := by
        rw [hba]
        exact hatk b0 (List.mem_append_left _ hbm)
      exact attack_evolves hcba (hu k) (evolves_nonneg hs'.2) hatt
    · intro s' cb c k q p1' txt hs' hcb hcbd hatt
      refine ⟨evolves_trans hs'.1 ?_, hs'.2⟩
      obtain ⟨b0, hb0, hba, hbm⟩ := evolves_attack_stat hs'.2 hcb
      have hcba : 0 ≤ cb.attack := by
        rw [hba]
        exact hatk b0 (List.mem_append_right _ hbm)
      exact attack_evolves hcba (hu k) (evolves_nonneg hs'.1) hatt
  have h0 : Evolves p1 (initSt p1 p2).p1 ∧ Evolves p2 (initSt p1 p2).p2 :=
    ⟨evolves_refl p1 (fun b hb => hh b (List.mem_append_left _ hb)),
     evolves_refl p2 (fun b hb => hh b (List.mem_append_right _ hb))⟩
  have hO := runLoop_holds e _ hstep fuel (initSt p1 p2) h0
  rw [hrun] at hO
  exact hO

/-- Witness for the amended C3 at a concrete battle. -/
theorem health_monotone_witness :
    (Evolves [wAlice] wSt.p1 ∧ Evolves [wBob] wSt.p2) ∧
    ∀ (cb : BattleBall) (es : List BattleBall) (c : ℕ) (u : ℚ)
      (es' : List BattleBall) (txt : String),
      0 ≤ cb.attack → 0 ≤ u → (∀ b ∈ es, 0 ≤ b.health) →
      attack cb es c u = some (es', txt) → Evolves es es' :=
  health_monotone eHit 5 [wAlice] [wBob] wSt
    (fun _ => (by decide : (0 : ℚ) ≤ mkRat 1 1))
    (by decide) (by decide) (by decide)

/-! ### C5: termination -/

theorem totalHealth_split (s : EngineSt) :
    totalHealth s = (s.p1.map healthNat).sum + (s.p2.map healthNat).sum := by
  simp [totalHealth]

theorem attack_progress {cb : BattleBall} {es es' : List BattleBall} {c : ℕ}
    {u : ℚ} {txt : String}
    (ha2 : 2 ≤ cb.attack) (hu : mkRat 4 5 ≤ u)
    (hes : ∀ b ∈ es, 2 ≤ b.attack ∧ (b.dead = false → 1 ≤ b.health))
    (hatt : attack cb es c u = some (es', txt)) :
    (∀ b ∈ es', 2 ≤ b.attack ∧ (b.dead = false → 1 ≤ b.health)) ∧
    (es'.map healthNat).sum < (es.map healthNat).sum := by
  obtain ⟨t, enemy, he, hed, hset⟩ := attack_eq_some hatt
  subst hset
  have hd : 1 ≤ get_damage cb u := get_damage_pos cb u ha2 hu
  have hee := hes enemy (List.getElem?_mem he)
  constructor
  · intro b hb
    rcases List.mem_or_eq_of_mem_set hb with hbm | rfl
    · exact hes b hbm
    · constructor
      · rw [takeDamage_attack_eq]
        exact hee.1
      · exact fun hbd => takeDamage_alive_health _ _ hbd
  · refine sum_map_set_lt healthNat es t _ enemy he ?_
    have := takeDamage_toNat_lt enemy (get_damage cb u) hd (hee.2 hed)
    simpa [healthNat] using this

theorem progress_atk1_closure (e : Entropy)
    (hu : ∀ k, mkRat 4 5 ≤ (e k).unif) (M i : ℕ) :
    ∀ (s : EngineSt) (cb : BattleBall) (c k q : ℕ)
      (p2' : List BattleBall) (txt : String),
      (ProgressInv s ∧ totalHealth s < M) → s.p1[i]? = some cb →
      cb.dead = false →
      attack cb s.p2 c ((e k).unif) = some (p2', txt) →
      ProgressInv { s with
          p2 := p2', turn := s.turn + 1, pos := q,
          log := s.log ++ [turnLine (s.turn + 1) txt] } ∧
        totalHealth { s with
          p2 := p2', turn := s.turn + 1, pos := q,
          log := s.log ++ [turnLine (s.turn + 1) txt] } < M := by
  intro s cb c k q p2' txt hs' hcb hcbd hatt
  have hcb2 : 2 ≤ cb.attack := (hs'.1.1 cb (List.getElem?_mem hcb)).1
  have h := attack_progress hcb2 (hu k) hs'.1.2 hatt
  refine ⟨⟨hs'.1.1, h.1⟩, ?_⟩
  have h2 := hs'.2
  have h3 := h.2
  rw [totalHealth_split] at h2 ⊢
  dsimp only
  omega

theorem progress_atk2_closure (e : Entropy)
    (hu : ∀ k, mkRat 4 5 ≤ (e k).unif) (M j : ℕ) :
    ∀ (s : EngineSt) (cb : BattleBall) (c k q : ℕ)
      (p1' : List BattleBall) (txt : String),
      (ProgressInv s ∧ totalHealth s < M) → s.p2[j]? = some cb →
      cb.dead = false →
      attack cb s.p1 c ((e k).unif) = some (p1', txt) →
      ProgressInv { s with
          p1 := p1', turn := s.turn + 1, pos := q,
          log := s.log ++ [turnLine (s.turn + 1) txt] } ∧
        totalHealth { s with
          p1 := p1', turn := s.turn + 1, pos := q,
          log := s.log ++ [turnLine (s.turn + 1) txt] } < M := by
  intro s cb c k q p1' txt hs' hcb hcbd hatt
  have hcb2 : 2 ≤ cb.attack := (hs'.1.2 cb (List.getElem?_mem hcb)).1
  have h := attack_progress hcb2 (hu k) hs'.1.1 hatt
  refine ⟨⟨h.1, hs'.1.2⟩, ?_⟩
  have h2 := hs'.2
  have h3 := h.2
  rw [totalHealth_split] at h2 ⊢
  dsimp only
  omega

theorem progress_lt_step (e : Entropy)
    (hu : ∀ k, mkRat 4 5 ≤ (e k).unif) (M : ℕ) (i j : ℕ) (s : EngineSt)
    (hP : ProgressInv s ∧ totalHealth s < M) :
    StepRes.holds (fun s => ProgressInv s ∧ totalHealth s < M)
      (pairStep e i j s) :=
  pairStep_holds e i j s _ hP (fun _ _ _ hs' => hs')
    (progress_atk1_closure e hu M i) (progress_atk2_closure e hu M j)

theorem pairStep_first_progress (e : Entropy) (i j : ℕ) (st : EngineSt)
    (hm : ∀ k, 30 < (e k).int % 101)
    (hu : ∀ k, mkRat 4 5 ≤ (e k).unif)
    (hinv : ProgressInv st)
    (a : BattleBall) (ha : st.p1[i]? = some a) (had : a.dead = false)
    (h2 : anyAlive st.p2 = true) :
    StepRes.holds (fun s => ProgressInv s ∧ totalHealth s < totalHealth st)
      (pairStep e i j st) := by
  unfold pairStep
  simp only []
  split
  · next heq =>
    rw [ha] at heq
    exact absurd heq (by simp)
  · next p1_ball heq =>
    rw [ha] at heq
    injection heq with heq
    subst heq
    split
    · next hdead =>
      rw [had] at hdead
      exact absurd hdead (by simp)
    · next hdead =>
      split
      · next hroll =>
        exfalso
        unfold random_events at hroll
        split at hroll
        · next hle =>
          have := hm st.pos
          omega
        · exact absurd hroll (by simp)
      · next hroll =>
        obtain ⟨es', txt, t, enemy, hatt, he, hed, hset⟩ :=
          attack_succeeds a st.p2 ((e (st.pos + 1)).int)
            ((e (st.pos + 1 + 1)).unif) h2
        split
        · next heq2 =>
          rw [hatt] at heq2
          exact absurd heq2 (by simp)
        · next p2' txt' heq2 =>
          rw [hatt] at heq2
          injection heq2 with heq2
          injection heq2 with heqA heqB
          subst heqA
          subst heqB
          have hcb2 : 2 ≤ a.attack := (hinv.1 a (List.getElem?_mem ha)).1
          have hprog := attack_progress hcb2 (hu (st.pos + 1 + 1)) hinv.2 hatt
          have hPst' : ProgressInv { st with
              p2 := es', turn := st.turn + 1, pos := st.pos + 1 + 2,
              log := st.log ++ [turnLine (st.turn + 1) txt] } ∧
              totalHealth { st with
                p2 := es', turn := st.turn + 1, pos := st.pos + 1 + 2,
                log := st.log ++ [turnLine (st.turn + 1) txt] } <
              totalHealth st := by
            refine ⟨⟨hinv.1, hprog.1⟩, ?_⟩
            have h3 := hprog.2
            rw [totalHealth_split, totalHealth_split]
            dsimp only
            omega
          split
          · exact hPst'
          · exact pairStep2_holds e i j _ _ hPst'
              (fun _ _ _ hs' => hs')
              (progress_atk2_closure e hu (totalHealth st) j)

theorem runPairs_round (e : Entropy)
    (hm : ∀ k, 30 < (e k).int % 101)
    (hu : ∀ k, mkRat 4 5 ≤ (e k).unif)
    (st : EngineSt) (hc : loopCond st = true) (hinv : ProgressInv st) :
    ForRes.holds (fun s => ProgressInv s ∧ totalHealth s < totalHealth st)
      (runPairs e ((aliveIdxs st.p1).zip (aliveIdxs st.p2)) st) := by
  have hc' : anyAlive st.p1 = true ∧ anyAlive st.p2 = true := by
    unfold loopCond at hc
    exact Bool.and_eq_true_iff.mp hc
  obtain ⟨i, is, h1eq⟩ : ∃ i is, aliveIdxs st.p1 = i :: is := by
    cases h : aliveIdxs st.p1 with
    | nil => exact absurd h (aliveIdxs_ne_nil hc'.1)
    | cons i is => exact ⟨i, is, rfl⟩
  obtain ⟨j, js, h2eq⟩ : ∃ j js, aliveIdxs st.p2 = j :: js := by
    cases h : aliveIdxs st.p2 with
    | nil => exact absurd h (aliveIdxs_ne_nil hc'.2)
    | cons j js => exact ⟨j, js, rfl⟩
  rw [h1eq, h2eq, List.zip_cons_cons]
  obtain ⟨a, haa, had⟩ := aliveIdxs_mem (h1eq ▸ List.mem_cons_self i is)
  have hfirst := pairStep_first_progress e i j st hm hu hinv a haa had hc'.2
  unfold runPairs
  split
  · next st' heq =>
    rw [heq] at hfirst
    exact runPairs_holds e _
      (progress_lt_step e hu (totalHealth st)) (is.zip js) st' hfirst
  · next st' heq =>
    rw [heq] at hfirst
    exact hfirst
  · exact trivial

theorem runLoop_progress (e : Entropy)
    (hm : ∀ k, 30 < (e k).int % 101)
    (hu : ∀ k, mkRat 4 5 ≤ (e k).unif) :
    ∀ (fuel : ℕ) (st : EngineSt), ProgressInv st → totalHealth st ≤ fuel →
      (runLoop e fuel st).isFuelOut = false
  | 0, st, hinv, hf => by
    unfold runLoop
    split
    · next hc =>
      exfalso
      have hc1 : anyAlive st.p1 = true := by
        unfold loopCond at hc
        exact (Bool.and_eq_true_iff.mp hc).1
      obtain ⟨b, hbm, hbd⟩ := List.any_eq_true.mp hc1
      have hb1 : 1 ≤ b.health := (hinv.1 b hbm).2 (by simpa using hbd)
      have hbn : 1 ≤ healthNat b := by
        unfold healthNat
        omega
      have hle : healthNat b ≤ ((st.p1 ++ st.p2).map healthNat).sum :=
        List.le_sum_of_mem
          (List.mem_map_of_mem _ (List.mem_append_left _ hbm))
      have : 1 ≤ totalHealth st := by
        unfold totalHealth
        omega
      omega
    · simp [Outcome.isFuelOut]
  | fuel + 1, st, hinv, hf => by
    unfold runLoop
    split
    · next hc =>
      have hr := runPairs_round e hm hu st hc hinv
      split
      · next st' heq =>
        rw [heq] at hr
        obtain ⟨hi', hlt⟩ := hr
        exact runLoop_progress e hm hu fuel st' hi' (by omega)
      · simp [Outcome.isFuelOut]
    · simp [Outcome.isFuelOut]

/-- Counterexample to C5 as stated: the entropy stream that always rolls a
miss never damages anyone, so resolution is not bounded by total health over
minimum damage (here `2 / 1 = 2`): after `3` rounds (`3` turns) the battle
of `[wAlice]` vs `[c5Bob]` is still unresolved, and the same holds for any
round bound. -/
theorem termination_cex :
    gen_battle eMiss 3 [wAlice] [c5Bob] = .fuelOut c5St ∧ c5St.turn = 3 ∧
      totalHealth (initSt [wAlice] [c5Bob]) = 2 :=
  ⟨by decide, by decide, by decide⟩

/-- C5 (amended): resolution is not guaranteed to terminate for every
entropy sequence (an all-miss stream stalls forever).  What holds: when
every combatant has `attack ≥ 2` and every living combatant has
`health ≥ 1`, and the entropy stream never rolls a miss (`> 30`) and draws
uniforms in `[0.8, 1.2]`, the main loop finishes within `totalHealth` rounds
— with that much fuel it never runs out. -/
theorem termination_bound (e : Entropy) (fuel : ℕ) (p1 p2 : List BattleBall)
    (hm : ∀ k, 30 < (e k).int % 101)
    (hu : ∀ k, mkRat 4 5 ≤ (e k).unif)
    (hb : ∀ b ∈ p1 ++ p2, 2 ≤ b.attack ∧ (b.dead = false → 1 ≤ b.health))
    (hfuel : totalHealth (initSt p1 p2) ≤ fuel) :
    (runLoop e fuel (initSt p1 p2)).isFuelOut = false :=
  runLoop_progress e hm hu fuel (initSt p1 p2)
    ⟨fun b hbm => hb b (List.mem_append_left _ hbm),
     fun b hbm => hb b (List.mem_append_right _ hbm)⟩ hfuel

/-- Witness for the amended C5 at a concrete battle. -/
theorem termination_bound_witness :
    (runLoop eHit 8 (initSt [wBob] [c5Eve])).isFuelOut = false :=
  termination_bound eHit 8 [wBob] [c5Eve]
    (fun _ => (by decide : 30 < 100 % 101))
    (fun _ => (by decide : mkRat 4 5 ≤ mkRat 1 1)) (by decide) (by decide)

end Ballsdex
